import Mathlib

/-!
Verification of the go-sieve repository against its specification.

The Bit-Tracking Store (`BitSet`, file `bitset.go` of package `sievecache`)
is embedded below at Nat precision: Go `uint64` words become `Nat` values
kept below `2 ^ 64`, Go `int` sizes and indices become `Nat` (all public
claims about the bit set quantify over non-negative indices).  Slice
indexing is totalized with `List.getD`/`List.set`; on well-formed states
(invariant `BitSet.WF`) every access the Go code performs is in range, so
the totalized reads and writes agree with the Go semantics.  One extra
definition, `BitSet.GetChecked`, re-translates `Get` at signed-`int`
precision, with `Option` capturing Go run-time panics, in order to settle
the out-of-range-read claim exactly.

The SIEVE cache engine itself (`sievecache.go`) is not among the provided
sources - only its tests, examples and documentation are - so the cache is
modelled from the specification text (definitions marked
`Modelled from the spec:`).
-/

/-- The Bit-Tracking Store, from `bitset.go`: a packed boolean array.
`bits` is the backing array of 64-bit words, `size` the logical number of
bits. -/
structure BitSet where
  bits : List Nat
  size : Nat
deriving Repr, DecidableEq

/-- `NewBitSet` from `bitset.go`: `(capacity + 63) / 64` zeroed words and
logical size `capacity`. -/
def NewBitSet (capacity : Nat) : BitSet :=
  { bits := List.replicate ((capacity + 63) / 64) 0, size := capacity }

/-- The raw word-array readout shared by `Get` and the representation
invariant: bit `index % 64` of word `index / 64`, a missing word reading
as zero. -/
def BitSet.readBit (b : BitSet) (index : Nat) : Bool :=
  let wordIndex := index / 64
  let bitIndex := index % 64
  ((b.bits.getD wordIndex 0) &&& (1 <<< bitIndex)) != 0

/-- `Get` from `bitset.go`: out-of-size reads return `false`, otherwise the
stored bit is read out of the backing array. -/
def BitSet.Get (b : BitSet) (index : Nat) : Bool :=
  if index ≥ b.size then false
  else b.readBit index

/-- `Get` re-translated at Go signed-`int` precision.  Go truncating
division and remainder are `Int.tdiv`/`Int.tmod`.  A `none` result models
a run-time panic: for a negative index the code reaches
`b.bits[wordIndex] & (1 << bitIndex)` with `bitIndex` negative (negative
shift amounts panic in Go), or with `wordIndex` outside the slice (index
out of range panics). -/
def BitSet.GetChecked (b : BitSet) (index : Int) : Option Bool :=
  if index ≥ (b.size : Int) then some false
  else
    let wordIndex : Int := Int.tdiv index 64
    let bitIndex : Int := Int.tmod index 64
    if bitIndex < 0 then none
    else if wordIndex < 0 ∨ (b.bits.length : Int) ≤ wordIndex then none
    else some (((b.bits.getD wordIndex.toNat 0) &&& (1 <<< bitIndex.toNat)) != 0)

/-- `resize` from `bitset.go`: no-op unless `newSize` exceeds the current
size; the word array grows (zero-padded, existing words copied) only when
more words are needed. -/
def BitSet.resize (b : BitSet) (newSize : Nat) : BitSet :=
  if newSize ≤ b.size then b
  else
    let numWords := (newSize + 63) / 64
    let bits1 :=
      if numWords > b.bits.length
      then b.bits ++ List.replicate (numWords - b.bits.length) 0
      else b.bits
    { bits := bits1, size := newSize }

/-- `Set` from `bitset.go`: grow through `resize` when the index is beyond
the current size, then write the single bit (OR with the mask for `true`,
AND with the complemented mask for `false`; Go `^x` on `uint64` is
complement within 64 bits, i.e. XOR with `2 ^ 64 - 1`). -/
def BitSet.Set (b : BitSet) (index : Nat) (value : Bool) : BitSet :=
  let b1 := if index ≥ b.size then b.resize (index + 1) else b
  let wordIndex := index / 64
  let bitIndex := index % 64
  let w := b1.bits.getD wordIndex 0
  let w1 := if value then w ||| (1 <<< bitIndex)
            else w &&& ((2 ^ 64 - 1) ^^^ (1 <<< bitIndex))
  { b1 with bits := b1.bits.set wordIndex w1 }

/-- `Append` from `bitset.go`: literally `b.Set(b.size, value)`. -/
def BitSet.Append (b : BitSet) (value : Bool) : BitSet :=
  b.Set b.size value

/-- `Truncate` from `bitset.go`: no-op unless `newSize` is smaller than the
current size; otherwise the last retained word is masked down to its first
`newSize % 64` bits (when that is non-zero), surplus words are dropped, and
the logical size becomes `newSize`. -/
def BitSet.Truncate (b : BitSet) (newSize : Nat) : BitSet :=
  if newSize ≥ b.size then b
  else
    let numWords := (newSize + 63) / 64
    let bits1 :=
      if numWords > 0 then
        let lastWordBits := newSize % 64
        if lastWordBits > 0 then
          b.bits.set (numWords - 1)
            ((b.bits.getD (numWords - 1) 0) &&& ((1 <<< lastWordBits) - 1))
        else b.bits
      else b.bits
    let bits2 := if numWords < bits1.length then bits1.take numWords else bits1
    { bits := bits2, size := newSize }

/-- `Size` from `bitset.go`. -/
def BitSet.Size (b : BitSet) : Nat :=
  b.size

/-- The inner loop of `CountSetBits` from `bitset.go`: Hamming weight of
one word by repeatedly clearing the least significant set bit. -/
def popcountLoop (w : Nat) : Nat :=
  if h : w = 0 then 0
  else
    have : w &&& (w - 1) < w := Nat.lt_of_le_of_lt Nat.and_le_right
      (Nat.sub_lt (Nat.pos_of_ne_zero h) Nat.one_pos)
    1 + popcountLoop (w &&& (w - 1))

/-- `CountSetBits` from `bitset.go`: the per-word Hamming weights summed
over the backing array. -/
def BitSet.CountSetBits (b : BitSet) : Nat :=
  b.bits.foldl (fun count word => count + popcountLoop word) 0

/-- The operations of the Bit-Tracking Store that mutate a bit set, used to
describe states reachable through the public interface. -/
inductive BOp where
  | set (index : Nat) (value : Bool)
  | append (value : Bool)
  | truncate (newSize : Nat)
deriving Repr, DecidableEq

def BitSet.applyOp (b : BitSet) : BOp → BitSet
  | .set i v => b.Set i v
  | .append v => b.Append v
  | .truncate n => b.Truncate n

def BitSet.applyOps (b : BitSet) (ops : List BOp) : BitSet :=
  ops.foldl BitSet.applyOp b

/-- Does one operation write a `true` bit at position `i` (evaluated in
state `b`, since the position an `Append` writes is the current size)? -/
def BitSet.opWritesTrue (b : BitSet) : BOp → Nat → Bool
  | .set j v, i => v && decide (j = i)
  | .append v, i => v && decide (b.size = i)
  | .truncate _, _ => false

/-- Does no operation of the sequence write a `true` bit at position `i`? -/
def BitSet.noWriteTrue (b : BitSet) : List BOp → Nat → Bool
  | [], _ => true
  | op :: ops, i => !(b.opWritesTrue op i) && (b.applyOp op).noWriteTrue ops i

/-- Backing bits at or beyond the logical size are all zero. -/
def BitSet.StoredInv (b : BitSet) : Prop :=
  ∀ i, b.size ≤ i → b.readBit i = false

/-- Full representation invariant of the Bit-Tracking Store: the backing
array covers the logical size, every word is a `uint64` value, and stored
bits at or beyond the logical size are zero. -/
def BitSet.WF (b : BitSet) : Prop :=
  b.size ≤ 64 * b.bits.length ∧ (∀ w ∈ b.bits, w < 2 ^ 64) ∧ b.StoredInv

theorem BitSet.readBit_eq_testBit (b : BitSet) (i : Nat) :
    b.readBit i = (b.bits.getD (i / 64) 0).testBit (i % 64) := by
  show (b.bits.getD (i / 64) 0 &&& 1 <<< (i % 64) != 0)
      = (b.bits.getD (i / 64) 0).testBit (i % 64)
  rw [Nat.shiftLeft_eq, one_mul, Nat.and_two_pow]
  rcases h : (b.bits.getD (i / 64) 0).testBit (i % 64) with _ | _ <;> simp [h]

theorem BitSet.readBit_oob (b : BitSet) (i : Nat) (h : b.bits.length ≤ i / 64) :
    b.readBit i = false := by
  rw [BitSet.readBit_eq_testBit]
  rw [List.getD_eq_default _ _ h]
  simp [Nat.testBit]

/-- Wrap-up of the bounded check that decides `StoredInv`. -/
theorem BitSet.storedInv_iff (b : BitSet) :
    b.StoredInv ↔ ∀ i, i < 64 * b.bits.length → b.size ≤ i → b.readBit i = false := by
  constructor
  · intro h i _ hsz; exact h i hsz
  · intro h i hsz
    by_cases hlt : i < 64 * b.bits.length
    · exact h i hlt hsz
    · apply BitSet.readBit_oob
      rw [Nat.le_div_iff_mul_le (by norm_num)]
      have := Nat.le_of_not_lt hlt
      omega

instance (b : BitSet) : Decidable b.StoredInv :=
  decidable_of_iff _ (BitSet.storedInv_iff b).symm

instance (b : BitSet) : Decidable b.WF := by
  unfold BitSet.WF; infer_instance

theorem getD_append_replicate_zero (l : List Nat) (k j : Nat) :
    (l ++ List.replicate k 0).getD j 0 = l.getD j 0 := by
  rw [List.getD_eq_getElem?_getD, List.getD_eq_getElem?_getD]
  by_cases h : j < l.length
  · rw [List.getElem?_append_left h]
  · rw [List.getElem?_append_right (by omega), List.getElem?_replicate,
      show l[j]? = none from List.getElem?_eq_none (by omega)]
    by_cases h2 : j - l.length < k <;> simp [h2]

theorem getD_set_self (l : List Nat) (i : Nat) (a : Nat) (h : i < l.length) :
    (l.set i a).getD i 0 = a := by
  rw [List.getD_eq_getElem?_getD, List.getElem?_set_self (by omega)]
  rfl

theorem getD_set_ne (l : List Nat) (i j : Nat) (a : Nat) (h : i ≠ j) :
    (l.set i a).getD j 0 = l.getD j 0 := by
  rw [List.getD_eq_getElem?_getD, List.getD_eq_getElem?_getD, List.getElem?_set_ne h]

theorem getD_take_lt (l : List Nat) (n j : Nat) (h : j < n) :
    (l.take n).getD j 0 = l.getD j 0 := by
  rw [List.getD_eq_getElem?_getD, List.getD_eq_getElem?_getD, List.getElem?_take_of_lt h]

theorem getD_take_ge (l : List Nat) (n j : Nat) (h : n ≤ j) :
    (l.take n).getD j 0 = 0 := by
  rw [List.getD_eq_getElem?_getD, List.getElem?_eq_none]
  · rfl
  · have := l.length_take n
    omega

theorem size_NewBitSet (c : Nat) : (NewBitSet c).size = c := rfl

theorem readBit_NewBitSet (c i : Nat) : (NewBitSet c).readBit i = false := by
  rw [BitSet.readBit_eq_testBit]
  show (List.getD (List.replicate _ 0) _ 0).testBit _ = false
  rw [List.getD_eq_getElem?_getD, List.getElem?_replicate]
  by_cases h : i / 64 < (c + 63) / 64 <;> simp [h, Nat.testBit]

theorem WF_NewBitSet (c : Nat) : (NewBitSet c).WF := by
  refine ⟨?_, ?_, ?_⟩
  · show c ≤ 64 * ((List.replicate ((c + 63) / 64) (0:Nat)).length)
    rw [List.length_replicate]
    have h := Nat.div_add_mod (c + 63) 64
    have h2 : (c + 63) % 64 < 64 := Nat.mod_lt _ (by norm_num)
    omega
  · intro w hw
    rw [List.eq_of_mem_replicate hw]
    norm_num
  · intro i _
    exact readBit_NewBitSet c i

theorem readBit_mk (l : List Nat) (s i : Nat) :
    BitSet.readBit ⟨l, s⟩ i = ((l.getD (i / 64) 0) &&& (1 <<< (i % 64)) != 0) := rfl

theorem size_resize (b : BitSet) (n : Nat) : (b.resize n).size = max b.size n := by
  unfold BitSet.resize
  by_cases h : n ≤ b.size <;> simp [h] <;> omega

theorem bits_resize_le (b : BitSet) (n : Nat) :
    b.bits.length ≤ (b.resize n).bits.length := by
  unfold BitSet.resize
  by_cases h : n ≤ b.size
  · simp [h]
  · simp only [h, if_false]
    by_cases h2 : (n + 63) / 64 > b.bits.length <;> simp [h2]

theorem bits_resize_words (b : BitSet) (n : Nat) (h : b.size < n) :
    (n + 63) / 64 ≤ (b.resize n).bits.length := by
  unfold BitSet.resize
  simp only [if_neg (Nat.not_le.mpr h)]
  by_cases h2 : (n + 63) / 64 > b.bits.length <;> simp [h2] <;> omega

theorem readBit_resize (b : BitSet) (n i : Nat) :
    (b.resize n).readBit i = b.readBit i := by
  unfold BitSet.resize
  by_cases h : n ≤ b.size
  · simp [h]
  · simp only [h, if_false]
    by_cases h2 : (n + 63) / 64 > b.bits.length
    · simp only [h2, if_true, readBit_mk]
      rw [getD_append_replicate_zero]
      rfl
    · simp only [h2, if_false, readBit_mk]
      rfl

theorem and_shift_bne (x k : Nat) : (x &&& (1 <<< k) != 0) = x.testBit k := by
  rw [Nat.shiftLeft_eq, one_mul, Nat.and_two_pow]
  rcases h : x.testBit k with _ | _ <;> simp [h]

theorem testBit_mask_self (k : Nat) (hk : k < 64) :
    ((2 ^ 64 - 1) ^^^ (1 <<< k)).testBit k = false := by
  rw [Nat.shiftLeft_eq, one_mul, Nat.testBit_xor, Nat.testBit_two_pow_sub_one,
    Nat.testBit_two_pow_self]
  simp [hk]

theorem testBit_mask_ne (k t : Nat) (ht : t < 64) (hne : t ≠ k) :
    ((2 ^ 64 - 1) ^^^ (1 <<< k)).testBit t = true := by
  rw [Nat.shiftLeft_eq, one_mul, Nat.testBit_xor, Nat.testBit_two_pow_sub_one,
    Nat.testBit_two_pow_of_ne (Ne.symm hne)]
  simp [ht]

theorem testBit_setWord_self (w k : Nat) (v : Bool) (hk : k < 64) :
    (if v then w ||| (1 <<< k) else w &&& ((2 ^ 64 - 1) ^^^ (1 <<< k))).testBit k = v := by
  cases v
  · simp only [Bool.false_eq_true, if_false]
    rw [Nat.testBit_land, testBit_mask_self k hk, Bool.and_false]
  · simp only [if_true]
    rw [Nat.testBit_lor, Nat.shiftLeft_eq, one_mul, Nat.testBit_two_pow_self, Bool.or_true]

theorem testBit_setWord_ne (w k t : Nat) (v : Bool) (ht : t < 64) (hne : t ≠ k) :
    (if v then w ||| (1 <<< k) else w &&& ((2 ^ 64 - 1) ^^^ (1 <<< k))).testBit t
      = w.testBit t := by
  cases v
  · simp only [Bool.false_eq_true, if_false]
    rw [Nat.testBit_land, testBit_mask_ne k t ht hne, Bool.and_true]
  · simp only [if_true]
    rw [Nat.testBit_lor, Nat.shiftLeft_eq, one_mul,
      Nat.testBit_two_pow_of_ne (Ne.symm hne), Bool.or_false]

theorem Set_eq (b : BitSet) (i : Nat) (v : Bool) :
    b.Set i v =
      { bits := (if i ≥ b.size then b.resize (i + 1) else b).bits.set (i / 64)
          (if v
           then ((if i ≥ b.size then b.resize (i + 1) else b).bits.getD (i / 64) 0)
             ||| (1 <<< (i % 64))
           else ((if i ≥ b.size then b.resize (i + 1) else b).bits.getD (i / 64) 0)
             &&& ((2 ^ 64 - 1) ^^^ (1 <<< (i % 64)))),
        size := (if i ≥ b.size then b.resize (i + 1) else b).size } := rfl

theorem size_Set (b : BitSet) (i : Nat) (v : Bool) :
    (b.Set i v).size = max b.size (i + 1) := by
  rw [Set_eq]
  by_cases h : i ≥ b.size
  · simp only [h, if_true, size_resize]
  · simp only [h, if_false]
    show b.size = max b.size (i + 1)
    omega

theorem length_bits_Set_working (b : BitSet) (i : Nat) (v : Bool) :
    (b.Set i v).bits.length
      = (if i ≥ b.size then b.resize (i + 1) else b).bits.length := by
  rw [Set_eq]
  exact List.length_set _ _ _

theorem working_len_lt (b : BitSet) (i : Nat)
    (hcov : b.size ≤ 64 * b.bits.length ∨ b.size ≤ i) :
    i / 64 < (if i ≥ b.size then b.resize (i + 1) else b).bits.length := by
  by_cases h : i ≥ b.size
  · simp only [h, if_true]
    have h2 := bits_resize_words b (i + 1) (by omega)
    omega
  · simp only [h, if_false]
    rcases hcov with hc | hc <;> omega

theorem readBit_Set_self (b : BitSet) (i : Nat) (v : Bool)
    (hcov : b.size ≤ 64 * b.bits.length ∨ b.size ≤ i) :
    (b.Set i v).readBit i = v := by
  have hlen := working_len_lt b i hcov
  rw [BitSet.readBit_eq_testBit, Set_eq]
  show ((List.set _ _ _).getD (i / 64) 0).testBit (i % 64) = v
  rw [getD_set_self _ _ _ hlen]
  exact testBit_setWord_self _ _ v (Nat.mod_lt _ (by norm_num))

theorem readBit_Set_ne (b : BitSet) (i j : Nat) (v : Bool) (hne : j ≠ i) :
    (b.Set i v).readBit j = b.readBit j := by
  have hres : (if i ≥ b.size then b.resize (i + 1) else b).readBit j = b.readBit j := by
    by_cases h : i ≥ b.size <;> simp [h, readBit_resize]
  rw [BitSet.readBit_eq_testBit, Set_eq]
  show ((List.set _ _ _).getD (j / 64) 0).testBit (j % 64) = b.readBit j
  rw [← hres, BitSet.readBit_eq_testBit]
  by_cases hw : j / 64 = i / 64
  · have hbb : j % 64 ≠ i % 64 := by omega
    rw [hw]
    by_cases hlen : i / 64 < (if i ≥ b.size then b.resize (i + 1) else b).bits.length
    · rw [getD_set_self _ _ _ hlen]
      exact testBit_setWord_ne _ _ _ v (Nat.mod_lt _ (by norm_num)) hbb
    · rw [List.set_eq_of_length_le (by omega)]
  · rw [getD_set_ne _ _ _ _ (by omega)]

theorem readBit_Set_false_self (b : BitSet) (i : Nat) :
    (b.Set i false).readBit i = false := by
  by_cases hlen : i / 64 < (if i ≥ b.size then b.resize (i + 1) else b).bits.length
  · rw [BitSet.readBit_eq_testBit, Set_eq]
    show ((List.set _ _ _).getD (i / 64) 0).testBit (i % 64) = false
    rw [getD_set_self _ _ _ hlen]
    exact testBit_setWord_self _ _ false (Nat.mod_lt _ (by norm_num))
  · have h0 : (if i ≥ b.size then b.resize (i + 1) else b).bits.getD (i / 64) 0 = 0 :=
      List.getD_eq_default _ _ (by omega)
    rw [BitSet.readBit_eq_testBit, Set_eq]
    show ((List.set _ _ _).getD (i / 64) 0).testBit (i % 64) = false
    rw [List.set_eq_of_length_le (by omega), h0]
    simp [Nat.testBit]

theorem Truncate_noop (b : BitSet) (n : Nat) (h : b.size ≤ n) : b.Truncate n = b := by
  unfold BitSet.Truncate
  simp [h]

/-- The word-array part of `Truncate`, first step: mask the last retained
word (proof-side restatement of the body of `Truncate`). -/
def truncBits1 (l : List Nat) (n : Nat) : List Nat :=
  if (n + 63) / 64 > 0 then
    if n % 64 > 0 then
      l.set ((n + 63) / 64 - 1)
        ((l.getD ((n + 63) / 64 - 1) 0) &&& ((1 <<< (n % 64)) - 1))
    else l
  else l

/-- The word-array part of `Truncate`, second step: drop surplus words. -/
def truncWords (l : List Nat) (n : Nat) : List Nat :=
  if (n + 63) / 64 < (truncBits1 l n).length then (truncBits1 l n).take ((n + 63) / 64)
  else truncBits1 l n

theorem Truncate_eq (b : BitSet) (n : Nat) (h : n < b.size) :
    b.Truncate n = { bits := truncWords b.bits n, size := n } := by
  unfold BitSet.Truncate truncWords truncBits1
  rw [if_neg (by omega)]

theorem size_Truncate (b : BitSet) (n : Nat) (h : n < b.size) :
    (b.Truncate n).size = n := by
  rw [Truncate_eq b n h]

theorem length_truncBits1 (l : List Nat) (n : Nat) :
    (truncBits1 l n).length = l.length := by
  unfold truncBits1
  by_cases h0 : (n + 63) / 64 > 0 <;> by_cases h1 : n % 64 > 0 <;>
    simp [h0, h1]

theorem getD_truncWords_lt_numWords (l : List Nat) (n j : Nat)
    (hj : j < (n + 63) / 64) :
    (truncWords l n).getD j 0 = (truncBits1 l n).getD j 0 := by
  unfold truncWords
  by_cases ht : (n + 63) / 64 < (truncBits1 l n).length
  · rw [if_pos ht, getD_take_lt _ _ _ hj]
  · rw [if_neg ht]

theorem testBit_truncWords_ge (l : List Nat) (n i : Nat) (hi : n ≤ i) :
    ((truncWords l n).getD (i / 64) 0).testBit (i % 64) = false := by
  by_cases hA : i / 64 < (n + 63) / 64
  · have h64 : 0 < n % 64 := by omega
    have heq : i / 64 = (n + 63) / 64 - 1 := by omega
    rw [getD_truncWords_lt_numWords l n _ hA]
    unfold truncBits1
    rw [if_pos (by omega), if_pos h64, heq]
    by_cases hlen : (n + 63) / 64 - 1 < l.length
    · rw [getD_set_self _ _ _ hlen,
        show (1 <<< (n % 64)) - 1 = 2 ^ (n % 64) - 1 by rw [Nat.shiftLeft_eq, one_mul],
        Nat.testBit_land, Nat.testBit_two_pow_sub_one]
      simp [show ¬ (i % 64 < n % 64) by omega]
    · rw [List.set_eq_of_length_le (by omega), List.getD_eq_default _ _ (by omega)]
      simp [Nat.testBit]
  · have hgd : (truncWords l n).getD (i / 64) 0 = 0 := by
      unfold truncWords
      by_cases ht : (n + 63) / 64 < (truncBits1 l n).length
      · rw [if_pos ht, getD_take_ge _ _ _ (by omega)]
      · rw [if_neg ht, List.getD_eq_default]
        have := length_truncBits1 l n
        omega
    rw [hgd]
    simp [Nat.testBit]

theorem testBit_truncWords_lt (l : List Nat) (n i : Nat) (hi : i < n) :
    ((truncWords l n).getD (i / 64) 0).testBit (i % 64)
      = (l.getD (i / 64) 0).testBit (i % 64) := by
  have hA : i / 64 < (n + 63) / 64 := by omega
  rw [getD_truncWords_lt_numWords l n _ hA]
  by_cases h64 : 0 < n % 64
  · by_cases hj : i / 64 = (n + 63) / 64 - 1
    · have hword : i / 64 = n / 64 := by omega
      have hbit : i % 64 < n % 64 := by omega
      unfold truncBits1
      rw [if_pos (by omega), if_pos h64, ← hj]
      by_cases hlen : i / 64 < l.length
      · rw [getD_set_self _ _ _ hlen,
          show (1 <<< (n % 64)) - 1 = 2 ^ (n % 64) - 1 by rw [Nat.shiftLeft_eq, one_mul],
          Nat.testBit_land, Nat.testBit_two_pow_sub_one]
        simp [hbit]
      · rw [List.set_eq_of_length_le (by omega)]
    · unfold truncBits1
      rw [if_pos (by omega), if_pos h64, getD_set_ne _ _ _ _ (by omega)]
  · have hb1 : truncBits1 l n = l := by
      unfold truncBits1
      by_cases h0 : (n + 63) / 64 > 0 <;> simp [h0, h64]
    rw [hb1]

theorem readBit_Truncate_ge (b : BitSet) (n i : Nat) (hn : n < b.size) (hi : n ≤ i) :
    (b.Truncate n).readBit i = false := by
  rw [Truncate_eq b n hn, readBit_mk, and_shift_bne]
  exact testBit_truncWords_ge b.bits n i hi

theorem readBit_Truncate_lt (b : BitSet) (n i : Nat) (hi : i < n) :
    (b.Truncate n).readBit i = b.readBit i := by
  by_cases hn : n < b.size
  · rw [Truncate_eq b n hn, readBit_mk, and_shift_bne, BitSet.readBit_eq_testBit]
    exact testBit_truncWords_lt b.bits n i hi
  · rw [Truncate_noop b n (by omega)]

theorem getD_mem_or_zero (l : List Nat) (j : Nat) :
    l.getD j 0 ∈ l ∨ l.getD j 0 = 0 := by
  by_cases h : j < l.length
  · left
    rw [List.getD_eq_getElem?_getD, List.getElem?_eq_getElem h]
    exact List.getElem_mem h
  · right
    exact List.getD_eq_default _ _ (by omega)

theorem words_lt_Set (b : BitSet) (i : Nat) (v : Bool)
    (hw : ∀ w ∈ b.bits, w < 2 ^ 64) :
    ∀ w ∈ (b.Set i v).bits, w < 2 ^ 64 := by
  have hw1 : ∀ w ∈ (if i ≥ b.size then b.resize (i + 1) else b).bits, w < 2 ^ 64 := by
    by_cases h : i ≥ b.size
    · simp only [h, if_true]
      unfold BitSet.resize
      by_cases h2 : i + 1 ≤ b.size
      · simp only [h2, if_true]; exact hw
      · simp only [h2, if_false]
        by_cases h3 : (i + 1 + 63) / 64 > b.bits.length <;> simp only [h3, if_true, if_false]
        · intro w hmem
          rcases List.mem_append.mp hmem with hm | hm
          · exact hw w hm
          · rw [List.eq_of_mem_replicate hm]; norm_num
        · exact hw
    · simp only [h, if_false]; exact hw
  rw [Set_eq]
  intro w hmem
  rcases List.mem_or_eq_of_mem_set hmem with hm | hm
  · exact hw1 w hm
  · subst hm
    have hg : (if i ≥ b.size then b.resize (i + 1) else b).bits.getD (i / 64) 0 < 2 ^ 64 := by
      rcases getD_mem_or_zero (if i ≥ b.size then b.resize (i + 1) else b).bits (i / 64)
        with hm2 | hm2
      · exact hw1 _ hm2
      · rw [hm2]; norm_num
    cases v
    · simp only [Bool.false_eq_true, if_false]
      exact Nat.lt_of_le_of_lt Nat.and_le_left hg
    · simp only [if_true]
      refine Nat.or_lt_two_pow hg ?_
      rw [Nat.shiftLeft_eq, one_mul]
      exact Nat.pow_lt_pow_right (by norm_num) (Nat.mod_lt _ (by norm_num))

theorem size_le_words_Set (b : BitSet) (i : Nat) (v : Bool)
    (h : b.size ≤ 64 * b.bits.length) :
    (b.Set i v).size ≤ 64 * (b.Set i v).bits.length := by
  rw [size_Set, length_bits_Set_working]
  by_cases hge : i ≥ b.size
  · simp only [hge, if_true]
    have h1 := bits_resize_words b (i + 1) (by omega)
    have h2 := bits_resize_le b (i + 1)
    omega
  · simp only [hge, if_false]
    omega

theorem StoredInv_Set (b : BitSet) (i : Nat) (v : Bool) (h : b.StoredInv) :
    (b.Set i v).StoredInv := by
  intro j hj
  rw [size_Set] at hj
  rw [readBit_Set_ne b i j v (by omega)]
  exact h j (by omega)

theorem WF_Set (b : BitSet) (i : Nat) (v : Bool) (h : b.WF) : (b.Set i v).WF :=
  ⟨size_le_words_Set b i v h.1, words_lt_Set b i v h.2.1, StoredInv_Set b i v h.2.2⟩

theorem words_lt_Truncate (b : BitSet) (n : Nat) (hw : ∀ w ∈ b.bits, w < 2 ^ 64) :
    ∀ w ∈ (b.Truncate n).bits, w < 2 ^ 64 := by
  by_cases h : n < b.size
  · rw [Truncate_eq b n h]
    intro w hmem
    have hb1 : ∀ w ∈ truncBits1 b.bits n, w < 2 ^ 64 := by
      intro w2 hm2
      unfold truncBits1 at hm2
      by_cases h0 : (n + 63) / 64 > 0 <;> by_cases h1 : n % 64 > 0 <;>
        simp only [h0, h1, if_true, if_false] at hm2
      · rcases List.mem_or_eq_of_mem_set hm2 with hm3 | hm3
        · exact hw w2 hm3
        · subst hm3
          refine Nat.lt_of_le_of_lt Nat.and_le_left ?_
          rcases getD_mem_or_zero b.bits ((n + 63) / 64 - 1) with hm4 | hm4
          · exact hw _ hm4
          · rw [hm4]; norm_num
      all_goals exact hw w2 hm2
    unfold truncWords at hmem
    by_cases ht : (n + 63) / 64 < (truncBits1 b.bits n).length <;>
      simp only [ht, if_true, if_false] at hmem
    · exact hb1 w (List.mem_of_mem_take hmem)
    · exact hb1 w hmem
  · rw [Truncate_noop b n (by omega)]
    exact hw

theorem size_le_words_Truncate (b : BitSet) (n : Nat)
    (h : b.size ≤ 64 * b.bits.length) :
    (b.Truncate n).size ≤ 64 * (b.Truncate n).bits.length := by
  by_cases hn : n < b.size
  · rw [Truncate_eq b n hn]
    show n ≤ 64 * (truncWords b.bits n).length
    unfold truncWords
    have hlen := length_truncBits1 b.bits n
    by_cases ht : (n + 63) / 64 < (truncBits1 b.bits n).length <;>
      simp only [ht, if_true, if_false]
    · rw [List.length_take]
      omega
    · omega
  · rw [Truncate_noop b n (by omega)]
    exact h

theorem StoredInv_Truncate (b : BitSet) (n : Nat) (h : b.StoredInv) :
    (b.Truncate n).StoredInv := by
  intro j hj
  by_cases hn : n < b.size
  · rw [size_Truncate b n hn] at hj
    exact readBit_Truncate_ge b n j hn hj
  · rw [Truncate_noop b n (by omega)] at hj ⊢
    exact h j hj

theorem WF_Truncate (b : BitSet) (n : Nat) (h : b.WF) : (b.Truncate n).WF :=
  ⟨size_le_words_Truncate b n h.1, words_lt_Truncate b n h.2.1, StoredInv_Truncate b n h.2.2⟩

theorem WF_applyOp (b : BitSet) (op : BOp) (h : b.WF) : (b.applyOp op).WF := by
  cases op with
  | set i v => exact WF_Set b i v h
  | append v => exact WF_Set b b.size v h
  | truncate n => exact WF_Truncate b n h

theorem WF_applyOps (b : BitSet) (ops : List BOp) (h : b.WF) : (b.applyOps ops).WF := by
  induction ops generalizing b with
  | nil => exact h
  | cons op ops ih => exact ih (b.applyOp op) (WF_applyOp b op h)

theorem StoredInv_applyOp (b : BitSet) (op : BOp) (h : b.StoredInv) :
    (b.applyOp op).StoredInv := by
  cases op with
  | set i v => exact StoredInv_Set b i v h
  | append v => exact StoredInv_Set b b.size v h
  | truncate n => exact StoredInv_Truncate b n h

theorem StoredInv_applyOps (b : BitSet) (ops : List BOp) (h : b.StoredInv) :
    (b.applyOps ops).StoredInv := by
  induction ops generalizing b with
  | nil => exact h
  | cons op ops ih => exact ih (b.applyOp op) (StoredInv_applyOp b op h)

theorem Get_eq_false_of_readBit (b : BitSet) (i : Nat) (h : b.readBit i = false) :
    b.Get i = false := by
  unfold BitSet.Get
  by_cases hs : i ≥ b.size <;> simp [hs, h]

theorem readBit_applyOp_false (b : BitSet) (op : BOp) (i : Nat)
    (h : b.readBit i = false) (hw : b.opWritesTrue op i = false) :
    (b.applyOp op).readBit i = false := by
  cases op with
  | set j v =>
    show (b.Set j v).readBit i = false
    by_cases hji : j = i
    · subst hji
      have hv : v = false := by
        simpa [BitSet.opWritesTrue] using hw
      subst hv
      exact readBit_Set_false_self b j
    · rw [readBit_Set_ne b j i v (fun hc => hji hc.symm)]
      exact h
  | append v =>
    show (b.Set b.size v).readBit i = false
    by_cases hsz : b.size = i
    · have hv : v = false := by
        simpa [BitSet.opWritesTrue, hsz] using hw
      subst hv
      subst hsz
      exact readBit_Set_false_self b b.size
    · rw [readBit_Set_ne b b.size i v (fun hc => hsz hc.symm)]
      exact h
  | truncate n =>
    show (b.Truncate n).readBit i = false
    by_cases hn : n < b.size
    · by_cases hi : n ≤ i
      · exact readBit_Truncate_ge b n i hn hi
      · rw [readBit_Truncate_lt b n i (by omega)]
        exact h
    · rw [Truncate_noop b n (by omega)]
      exact h

theorem readBit_applyOps_false (b : BitSet) (ops : List BOp) (i : Nat)
    (h : b.readBit i = false) (hw : b.noWriteTrue ops i = true) :
    (b.applyOps ops).readBit i = false := by
  induction ops generalizing b with
  | nil => exact h
  | cons op ops ih =>
    have hw2 : (!(b.opWritesTrue op i) && (b.applyOp op).noWriteTrue ops i) = true := hw
    rw [Bool.and_eq_true, Bool.not_eq_true'] at hw2
    exact ih (b.applyOp op) (readBit_applyOp_false b op i h hw2.1) hw2.2

/-- C10: a freshly constructed bit set has the requested logical size and
reads `false` at every index. -/
theorem C10_NewBitSet_all_false (c : Nat) :
    (NewBitSet c).Size = c ∧ ∀ i, (NewBitSet c).Get i = false :=
  ⟨rfl, fun i => Get_eq_false_of_readBit _ i (readBit_NewBitSet c i)⟩

/-- C3 counterexample: `Get` translated at Go `int` precision panics (models
as `none`) on the out-of-range index `-1` for a freshly constructed one-bit
set, instead of returning `false`: the guard `index >= b.size` does not
catch negative indices, and the shift `1 << (index % 64)` then has the
negative amount `-1`, a run-time panic in Go. -/
theorem C3_counterexample : (NewBitSet 1).GetChecked (-1) = none := by decide

/-- C3 amended: `Get` returns `false` without error on every index at or
beyond the logical size (stated both at Go `int` precision, where `none`
would model a panic, and for the Nat embedding); indices below zero are not
covered - the code panics there. -/
theorem C3_get_beyond_size :
    (∀ (b : BitSet) (index : Int), (b.size : Int) ≤ index →
       b.GetChecked index = some false) ∧
    (∀ (b : BitSet) (i : Nat), b.size ≤ i → b.Get i = false) := by
  constructor
  · intro b index h
    unfold BitSet.GetChecked
    rw [if_pos h]
  · intro b i h
    unfold BitSet.Get
    rw [if_pos h]

theorem C3_witness :
    ((NewBitSet 2).size : Int) ≤ 5 ∧ (NewBitSet 2).GetChecked 5 = some false :=
  ⟨by decide, C3_get_beyond_size.1 (NewBitSet 2) 5 (by decide)⟩

/-- C5: on a well-formed bit set, `Set index value` makes `Get index` return
`value`, sets the logical size to the maximum of the old size and
`index + 1` (growing, never shrinking), and leaves `Get` unchanged at every
other index. -/
theorem C5_set_effect (b : BitSet) (i : Nat) (v : Bool) (h : b.WF) :
    (b.Set i v).Get i = v ∧ (b.Set i v).size = max b.size (i + 1) ∧
      ∀ j, j ≠ i → (b.Set i v).Get j = b.Get j := by
  have hsz := size_Set b i v
  refine ⟨?_, hsz, ?_⟩
  · unfold BitSet.Get
    rw [if_neg (by omega), readBit_Set_self b i v (Or.inl h.1)]
  · intro j hj
    unfold BitSet.Get
    by_cases hj1 : j < b.size
    · rw [if_neg (by omega), if_neg (by omega), readBit_Set_ne b i j v hj]
    · by_cases hj2 : j < (b.Set i v).size
      · rw [if_neg (by omega), if_pos (by omega), readBit_Set_ne b i j v hj]
        exact h.2.2 j (by omega)
      · rw [if_pos (by omega), if_pos (by omega)]

theorem C5_witness :
    (NewBitSet 3).WF ∧ ((NewBitSet 3).Set 1 true).Get 1 = true :=
  ⟨by decide, (C5_set_effect (NewBitSet 3) 1 true (by decide)).1⟩

/-- C8: `Append value` is definitionally `Set size value`; it extends the
logical size by exactly one, makes `Get` at the old size return `value`,
and leaves every bit below the old size unchanged. -/
theorem C8_append_is_set_at_size (b : BitSet) (v : Bool) :
    b.Append v = b.Set b.size v ∧ (b.Append v).size = b.size + 1 ∧
      (b.Append v).Get b.size = v ∧
      ∀ j, j < b.size → (b.Append v).Get j = b.Get j := by
  have hsz : (b.Append v).size = b.size + 1 := by
    show (b.Set b.size v).size = b.size + 1
    rw [size_Set]
    omega
  refine ⟨rfl, hsz, ?_, ?_⟩
  · show (b.Set b.size v).Get b.size = v
    unfold BitSet.Get
    rw [if_neg (by rw [size_Set]; omega), readBit_Set_self b b.size v (Or.inr le_rfl)]
  · intro j hj
    show (b.Set b.size v).Get j = b.Get j
    unfold BitSet.Get
    rw [if_neg (by rw [size_Set]; omega), if_neg (by omega),
      readBit_Set_ne b b.size j v (by omega)]

theorem C8_witness :
    (2 : Nat) < (BitSet.mk [5] 3).size ∧
      ((BitSet.mk [5] 3).Append true).Get 2 = (BitSet.mk [5] 3).Get 2 :=
  ⟨by decide, (C8_append_is_set_at_size (BitSet.mk [5] 3) true).2.2.2 2 (by decide)⟩

/-- C9: the representation invariant - every stored bit at or beyond the
logical size is zero - holds in every state reachable from `NewBitSet` by
`Set`, `Append` and `Truncate`, and each single operation preserves it. -/
theorem C9_stored_invariant :
    (∀ (c : Nat) (ops : List BOp), ((NewBitSet c).applyOps ops).StoredInv) ∧
    (∀ (b : BitSet) (op : BOp), b.StoredInv → (b.applyOp op).StoredInv) :=
  ⟨fun c ops => StoredInv_applyOps _ ops (fun i _ => readBit_NewBitSet c i),
   fun b op h => StoredInv_applyOp b op h⟩

theorem C9_witness :
    (BitSet.mk [3] 2).StoredInv ∧ ((BitSet.mk [3] 2).applyOp (.truncate 1)).StoredInv :=
  ⟨by decide, C9_stored_invariant.2 (BitSet.mk [3] 2) (.truncate 1) (by decide)⟩

/-- C2: `Truncate newSize` is the identity when `newSize` is at least the
logical size; otherwise it sets the logical size to `newSize`, clears every
retained stored bit at positions at or beyond `newSize`, and consequently
after any further sequence of operations that never writes `true` at such a
position, `Get` still returns `false` there - truncated-away bits are not
resurrected by growth. -/
theorem C2_truncate_clears_stale_bits (b : BitSet) (n : Nat) :
    (b.size ≤ n → b.Truncate n = b) ∧
    (n < b.size →
      (b.Truncate n).size = n ∧
      (∀ i, n ≤ i → (b.Truncate n).readBit i = false) ∧
      (∀ (ops : List BOp) (i : Nat), n ≤ i →
        (b.Truncate n).noWriteTrue ops i = true →
        ((b.Truncate n).applyOps ops).Get i = false)) := by
  refine ⟨fun h => Truncate_noop b n h, fun h =>
    ⟨size_Truncate b n h, fun i hi => readBit_Truncate_ge b n i h hi,
     fun ops i hi hnw => ?_⟩⟩
  exact Get_eq_false_of_readBit _ _
    (readBit_applyOps_false _ ops i (readBit_Truncate_ge b n i h hi) hnw)

theorem C2_witness :
    (1 : Nat) < (BitSet.mk [3] 2).size ∧
      (((BitSet.mk [3] 2).Truncate 1).applyOps [.set 5 true]).Get 1 = false :=
  ⟨by decide, ((C2_truncate_clears_stale_bits (BitSet.mk [3] 2) 1).2 (by decide)).2.2
    [.set 5 true] 1 (by decide) (by decide)⟩

/-- Binary-recursion bit count, the reference against which the
`w &= w - 1` loop of `CountSetBits` is proved. -/
def count1 (w : Nat) : Nat :=
  if h : w = 0 then 0
  else
    have : w / 2 < w := Nat.div_lt_self (Nat.pos_of_ne_zero h) (by norm_num)
    count1 (w / 2) + w % 2

theorem count1_zero : count1 0 = 0 := by
  simp [count1]

theorem count1_eq (w : Nat) : count1 w = w % 2 + count1 (w / 2) := by
  by_cases h : w = 0
  · subst h
    rw [count1_zero]
  · rw [count1, dif_neg h, Nat.add_comm]

theorem count1_two_mul (u : Nat) : count1 (2 * u) = count1 u := by
  rw [count1_eq, show (2 * u) % 2 = 0 by omega, show (2 * u) / 2 = u by omega,
    Nat.zero_add]

theorem count1_two_mul_add_one (u : Nat) : count1 (2 * u + 1) = count1 u + 1 := by
  rw [count1_eq, show (2 * u + 1) % 2 = 1 by omega, show (2 * u + 1) / 2 = u by omega,
    Nat.add_comm]

theorem land_two_mul_left (a b : Nat) : (2 * a) &&& (2 * b + 1) = 2 * (a &&& b) := by
  have h := Nat.land_bit false a true b
  simpa [Nat.bit] using h

theorem land_two_mul_right (a b : Nat) : (2 * a + 1) &&& (2 * b) = 2 * (a &&& b) := by
  have h := Nat.land_bit true a false b
  simpa [Nat.bit] using h

theorem count1_land_pred (w : Nat) (h : 0 < w) :
    count1 (w &&& (w - 1)) + 1 = count1 w := by
  induction w using Nat.strong_induction_on with
  | _ w ih =>
    rcases Nat.even_or_odd w with he | ho
    · obtain ⟨u, hu⟩ := he
      have hu2 : w = 2 * u := by omega
      subst hu2
      have hupos : 0 < u := by omega
      have hsub : 2 * u - 1 = 2 * (u - 1) + 1 := by omega
      rw [hsub, land_two_mul_left, count1_two_mul, count1_two_mul]
      exact ih u (by omega) hupos
    · obtain ⟨u, hu⟩ := ho
      subst hu
      have hsub : 2 * u + 1 - 1 = 2 * u := by omega
      rw [hsub, land_two_mul_right, Nat.and_self, count1_two_mul,
        count1_two_mul_add_one]

theorem popcountLoop_eq_count1 (w : Nat) : popcountLoop w = count1 w := by
  induction w using Nat.strong_induction_on with
  | _ w ih =>
    by_cases h : w = 0
    · subst h
      rw [count1_zero]
      simp [popcountLoop]
    · have hlt : w &&& (w - 1) < w := Nat.lt_of_le_of_lt Nat.and_le_right
        (Nat.sub_lt (Nat.pos_of_ne_zero h) Nat.one_pos)
      rw [popcountLoop, dif_neg h, ih _ hlt,
        ← count1_land_pred w (Nat.pos_of_ne_zero h), Nat.add_comm]

theorem count1_eq_sum_testBit (k : Nat) :
    ∀ w, w < 2 ^ k →
      count1 w = ∑ i in Finset.range k, if w.testBit i then 1 else 0 := by
  induction k with
  | zero =>
    intro w hw
    have : w = 0 := by omega
    subst this
    rw [count1_zero]
    simp
  | succ k ih =>
    intro w hw
    have hp : (2 : Nat) ^ (k + 1) = 2 * 2 ^ k := by ring
    have hw2 : w / 2 < 2 ^ k := by omega
    rw [count1_eq, Finset.sum_range_succ', ih (w / 2) hw2]
    have hterm : ∀ i, (if w.testBit (i + 1) then 1 else 0)
        = if (w / 2).testBit i then (1 : Nat) else 0 := by
      intro i
      rw [Nat.testBit_succ]
    have hzero : (if w.testBit 0 then (1 : Nat) else 0) = w % 2 := by
      rw [Nat.testBit_zero]
      rcases Nat.mod_two_eq_zero_or_one w with h2 | h2 <;> simp [h2]
    rw [Finset.sum_congr rfl (fun i _ => hterm i), hzero, Nat.add_comm]

theorem foldl_popcount_init (l : List Nat) (a : Nat) :
    l.foldl (fun count word => count + popcountLoop word) a
      = a + l.foldl (fun count word => count + popcountLoop word) 0 := by
  induction l generalizing a with
  | nil => simp
  | cons w l ih =>
    show l.foldl _ (a + popcountLoop w) = a + l.foldl _ (0 + popcountLoop w)
    rw [ih (a + popcountLoop w), ih (0 + popcountLoop w)]
    omega

theorem foldl_popcount_eq_sum (l : List Nat) (hw : ∀ w ∈ l, w < 2 ^ 64) :
    l.foldl (fun count word => count + popcountLoop word) 0
      = ∑ i in Finset.range (64 * l.length),
          if (l.getD (i / 64) 0).testBit (i % 64) then 1 else 0 := by
  induction l with
  | nil => simp
  | cons w l ih =>
    have hw0 : w < 2 ^ 64 := hw w (List.mem_cons_self w l)
    have hwl : ∀ x ∈ l, x < 2 ^ 64 := fun x hx => hw x (List.mem_cons_of_mem w hx)
    show l.foldl _ (0 + popcountLoop w) = _
    rw [Nat.zero_add, foldl_popcount_init, ih hwl, popcountLoop_eq_count1,
      count1_eq_sum_testBit 64 w hw0]
    have hlen : 64 * (w :: l).length = 64 + 64 * l.length := by
      rw [List.length_cons]
      ring
    rw [hlen]
    have h1 : (∑ i in Finset.range 64, if w.testBit i then (1 : Nat) else 0)
        = ∑ i in Finset.range 64,
            if ((w :: l).getD (i / 64) 0).testBit (i % 64) then 1 else 0 := by
      refine Finset.sum_congr rfl (fun i hi => ?_)
      have hi64 : i < 64 := Finset.mem_range.mp hi
      rw [show i / 64 = 0 by omega, List.getD_cons_zero, show i % 64 = i by omega]
    have h2 : (∑ i in Finset.range (64 * l.length),
          if (l.getD (i / 64) 0).testBit (i % 64) then (1 : Nat) else 0)
        = ∑ i in Finset.range (64 * l.length),
            if ((w :: l).getD ((64 + i) / 64) 0).testBit ((64 + i) % 64) then 1 else 0 := by
      refine Finset.sum_congr rfl (fun i _ => ?_)
      rw [show (64 + i) / 64 = i / 64 + 1 by omega,
        show (64 + i) % 64 = i % 64 by omega, List.getD_cons_succ]
    rw [Finset.sum_range_add, h1, h2]

theorem sum_testBit_eq_card_Get (b : BitSet) (h : b.WF) :
    (∑ i in Finset.range (64 * b.bits.length),
        if (b.bits.getD (i / 64) 0).testBit (i % 64) then 1 else 0)
      = ((Finset.range b.size).filter (fun i => b.Get i = true)).card := by
  have hsplit : Finset.range (64 * b.bits.length) = Finset.Ico 0 (64 * b.bits.length) := by
    rw [Finset.range_eq_Ico]
  rw [hsplit, ← Finset.sum_Ico_consecutive _ (Nat.zero_le b.size) h.1,
    ← Finset.range_eq_Ico]
  have hhigh : (∑ i in Finset.Ico b.size (64 * b.bits.length),
      if (b.bits.getD (i / 64) 0).testBit (i % 64) then 1 else 0) = 0 := by
    refine Finset.sum_eq_zero (fun i hi => ?_)
    have hge : b.size ≤ i := (Finset.mem_Ico.mp hi).1
    have hrb := h.2.2 i hge
    rw [BitSet.readBit_eq_testBit] at hrb
    rw [hrb]
    simp
  rw [hhigh, Nat.add_zero, Finset.card_filter]
  refine Finset.sum_congr rfl (fun i hi => ?_)
  have hlt : i < b.size := Finset.mem_range.mp hi
  have hget : b.Get i = b.readBit i := by
    unfold BitSet.Get
    rw [if_neg (by omega)]
  rw [hget, BitSet.readBit_eq_testBit]

/-- C4: on a well-formed bit set, `CountSetBits` equals the number of
indices below the logical size at which `Get` returns `true`. -/
theorem C4_count_set_bits (b : BitSet) (h : b.WF) :
    b.CountSetBits = ((Finset.range b.Size).filter (fun i => b.Get i = true)).card := by
  show b.bits.foldl _ 0 = _
  rw [foldl_popcount_eq_sum b.bits h.2.1]
  exact sum_testBit_eq_card_Get b h

theorem C4_witness :
    (BitSet.mk [5] 3).WF ∧
      (BitSet.mk [5] 3).CountSetBits
        = ((Finset.range (BitSet.mk [5] 3).Size).filter
            (fun i => (BitSet.mk [5] 3).Get i = true)).card :=
  ⟨by decide, C4_count_set_bits (BitSet.mk [5] 3) (by decide)⟩

/-- Modelled from the spec: one cached Entry (spec section 3) - the
implementation file `sievecache.go` is not among the provided sources.  An
entry carries its key, its value and the SIEVE `visited` bit. -/
structure SEntry (K V : Type) where
  key : K
  value : V
  visited : Bool
deriving Repr, DecidableEq

/-- Modelled from the spec: the Core Engine state (spec sections 3 and 4.2);
`sievecache.go` is not among the provided sources.  `entries` holds the live
entries in FIFO order, oldest (tail) first and newest (head) last, standing
for the doubly linked chain plus the key map; `hand` is the index of the
entry at which the next eviction scan resumes (`none` when unset);
`capacity` is the strictly positive bound fixed at construction. -/
structure SieveCache (K V : Type) where
  entries : List (SEntry K V)
  hand : Option Nat
  capacity : Nat
deriving Repr, DecidableEq

/-- Modelled from the spec: construction fails (returns `none`, the
`InvalidCapacity` condition) when the capacity is not positive. -/
def SieveCache.new (K V : Type) (capacity : Nat) : Option (SieveCache K V) :=
  if capacity = 0 then none else some ⟨[], none, capacity⟩

def containsKeyL {K V : Type} [DecidableEq K] (k : K) : List (SEntry K V) → Bool
  | [] => false
  | e :: es => decide (e.key = k) || containsKeyL k es

def lookupL {K V : Type} [DecidableEq K] (k : K) : List (SEntry K V) → Option V
  | [] => none
  | e :: es => if e.key = k then some e.value else lookupL k es

def visitedL {K V : Type} [DecidableEq K] (k : K) : List (SEntry K V) → Option Bool
  | [] => none
  | e :: es => if e.key = k then some e.visited else visitedL k es

/-- Replace the value of the first entry with key `k` and mark it visited
(the in-place update path of `insert`). -/
def updateEntry {K V : Type} [DecidableEq K] (k : K) (v : V) :
    List (SEntry K V) → List (SEntry K V)
  | [] => []
  | e :: es => if e.key = k then { e with value := v, visited := true } :: es
               else e :: updateEntry k v es

/-- Mark the first entry with key `k` visited (the read-hit path of `get`). -/
def touchEntry {K V : Type} [DecidableEq K] (k : K) :
    List (SEntry K V) → List (SEntry K V)
  | [] => []
  | e :: es => if e.key = k then { e with visited := true } :: es
               else e :: touchEntry k es

/-- Apply `f` to the value of the first entry with key `k` and mark it
visited (the `getMut` path). -/
def mutateEntry {K V : Type} [DecidableEq K] (k : K) (f : V → V) :
    List (SEntry K V) → List (SEntry K V)
  | [] => []
  | e :: es => if e.key = k then { e with value := f e.value, visited := true } :: es
               else e :: mutateEntry k f es

def findKeyIdx {K V : Type} [DecidableEq K] (k : K) : List (SEntry K V) → Option Nat
  | [] => none
  | e :: es => if e.key = k then some 0 else (findKeyIdx k es).map (· + 1)

/-- Modelled from the spec: the SIEVE eviction scan (spec section 4.2).
Starting at `pos`, a visited entry has its bit cleared and the cursor
advances toward the head, wrapping to the tail; the first unvisited entry
is the victim.  The fuel (called with `length + 1`) bounds the scan, which
the spec guarantees terminates within one full pass plus one step. -/
def sieveScan {K V : Type} : Nat → List (SEntry K V) → Nat → (List (SEntry K V) × Nat)
  | 0, es, pos => (es, pos)
  | fuel + 1, es, pos =>
    match es[pos]? with
    | none => (es, pos)
    | some e =>
      if e.visited then
        sieveScan fuel (es.set pos { e with visited := false }) ((pos + 1) % es.length)
      else (es, pos)

/-- Modelled from the spec: evict exactly one entry (spec section 4.2).  The
scan starts at the hand when set, else at the tail; the victim is removed
and the hand moves to the victim's former neighbor toward the head (the new
tail when the victim was the head). -/
def SieveCache.evict {K V : Type} (c : SieveCache K V) : SieveCache K V :=
  if c.entries.length = 0 then c
  else
    let start := match c.hand with
      | some p => p % c.entries.length
      | none => 0
    let scanned := sieveScan (c.entries.length + 1) c.entries start
    let es2 := scanned.1.eraseIdx scanned.2
    { c with
      entries := es2
      hand := if es2.length = 0 then none else some (scanned.2 % es2.length) }

/-- Modelled from the spec: `insert` (spec section 4.2).  A present key has
its value replaced in place and its visited bit set, returning `false`; a
fresh key triggers the eviction scan exactly once when the cache is full,
then is linked at the head with `visited = false`, returning `true`. -/
def SieveCache.insert {K V : Type} [DecidableEq K] (c : SieveCache K V) (k : K)
    (v : V) : SieveCache K V × Bool :=
  if containsKeyL k c.entries then
    ({ c with entries := updateEntry k v c.entries }, false)
  else
    let c1 := if c.entries.length = c.capacity then c.evict else c
    ({ c1 with entries := c1.entries ++ [⟨k, v, false⟩] }, true)

/-- Modelled from the spec: `get` (spec section 4.2) - on a hit the visited
bit is set and the value returned without moving the entry. -/
def SieveCache.get {K V : Type} [DecidableEq K] (c : SieveCache K V) (k : K) :
    Option V × SieveCache K V :=
  (lookupL k c.entries, { c with entries := touchEntry k c.entries })

/-- Modelled from the spec: `getMut` (spec section 4.2). -/
def SieveCache.getMut {K V : Type} [DecidableEq K] (c : SieveCache K V) (k : K)
    (f : V → V) : SieveCache K V × Bool :=
  ({ c with entries := mutateEntry k f c.entries }, containsKeyL k c.entries)

/-- Modelled from the spec: `remove` (spec section 4.2), with the hand
repaired when it pointed at or beyond the removed entry. -/
def SieveCache.remove {K V : Type} [DecidableEq K] (c : SieveCache K V) (k : K) :
    Option V × SieveCache K V :=
  match findKeyIdx k c.entries with
  | none => (none, c)
  | some i =>
    let es2 := c.entries.eraseIdx i
    let hand2 := match c.hand with
      | none => none
      | some p =>
        if es2.length = 0 then none
        else if p = i then some (i % es2.length)
        else if i < p then some (p - 1)
        else some p
    (lookupL k c.entries, { c with
      entries := es2
      hand := hand2 })

/-- Modelled from the spec: `clear` removes all entries, unsets the hand and
preserves the capacity. -/
def SieveCache.clear {K V : Type} (c : SieveCache K V) : SieveCache K V :=
  { c with
    entries := []
    hand := none }

/-- Modelled from the spec: `retain` keeps exactly the entries satisfying
the predicate, repairing the hand. -/
def SieveCache.retain {K V : Type} (c : SieveCache K V) (p : K → V → Bool) :
    SieveCache K V :=
  let es2 := c.entries.filter (fun e => p e.key e.value)
  { c with
    entries := es2
    hand := match c.hand with
      | none => none
      | some h =>
        if es2.length = 0 then none
        else some (((c.entries.take h).filter (fun e => p e.key e.value)).length
          % es2.length) }

def SieveCache.len {K V : Type} (c : SieveCache K V) : Nat :=
  c.entries.length

def SieveCache.containsKey {K V : Type} [DecidableEq K] (c : SieveCache K V)
    (k : K) : Bool :=
  containsKeyL k c.entries

/-- The public mutating operations of the Core Engine, for quantifying over
operation sequences. -/
inductive COp (K V : Type) where
  | insert (k : K) (v : V)
  | get (k : K)
  | getMut (k : K) (f : V → V)
  | remove (k : K)
  | clear
  | retain (p : K → V → Bool)

def SieveCache.applyCOp {K V : Type} [DecidableEq K] (c : SieveCache K V) :
    COp K V → SieveCache K V
  | .insert k v => (c.insert k v).1
  | .get k => (c.get k).2
  | .getMut k f => (c.getMut k f).1
  | .remove k => (c.remove k).2
  | .clear => c.clear
  | .retain p => c.retain p

def SieveCache.runOps {K V : Type} [DecidableEq K] (c : SieveCache K V)
    (ops : List (COp K V)) : SieveCache K V :=
  ops.foldl SieveCache.applyCOp c

def clampQ (x lo hi : ℚ) : ℚ := max lo (min x hi)

/-- Round to the nearest integer, halves up - the `round` of the spec's
`recommendedCapacity` formula, over exact rationals. -/
def roundQ (q : ℚ) : ℤ := ⌊q + 1 / 2⌋

def SieveCache.visitedCount {K V : Type} (c : SieveCache K V) : Nat :=
  (c.entries.filter (fun e => e.visited)).length

/-- Modelled from the spec: `recommendedCapacity` (spec section 4.2);
`sievecache.go` is not among the provided sources.  Utilization is the
visited-entry count over the capacity; an empty cache and parameter sets
violating the documented preconditions return the capacity unchanged; low
utilization scales the capacity by `clamp(u / lowThreshold, minFactor, 1)`,
high utilization by `clamp(u / highThreshold, 1, maxFactor)`, each rounded;
in the middle band the capacity is returned unchanged (a choice the spec
explicitly permits).  Real arithmetic is modelled exactly over `Rat`. -/
def SieveCache.recommendedCapacity {K V : Type} (c : SieveCache K V)
    (minFactor maxFactor lowThreshold highThreshold : ℚ) : ℤ :=
  if ¬ (0 < minFactor ∧ minFactor ≤ 1 ∧ 1 ≤ maxFactor ∧
        0 < lowThreshold ∧ lowThreshold < highThreshold ∧ highThreshold < 1) then
    (c.capacity : ℤ)
  else if c.entries.length = 0 then (c.capacity : ℤ)
  else
    let utilization : ℚ := (c.visitedCount : ℚ) / (c.capacity : ℚ)
    if utilization ≤ lowThreshold then
      roundQ ((c.capacity : ℚ) * clampQ (utilization / lowThreshold) minFactor 1)
    else if highThreshold ≤ utilization then
      roundQ ((c.capacity : ℚ) * clampQ (utilization / highThreshold) 1 maxFactor)
    else (c.capacity : ℤ)

theorem length_updateEntry {K V : Type} [DecidableEq K] (k : K) (v : V)
    (es : List (SEntry K V)) : (updateEntry k v es).length = es.length := by
  induction es with
  | nil => rfl
  | cons e es ih =>
    unfold updateEntry
    by_cases h : e.key = k <;> simp [h, ih]

theorem length_touchEntry {K V : Type} [DecidableEq K] (k : K)
    (es : List (SEntry K V)) : (touchEntry k es).length = es.length := by
  induction es with
  | nil => rfl
  | cons e es ih =>
    unfold touchEntry
    by_cases h : e.key = k <;> simp [h, ih]

theorem length_mutateEntry {K V : Type} [DecidableEq K] (k : K) (f : V → V)
    (es : List (SEntry K V)) : (mutateEntry k f es).length = es.length := by
  induction es with
  | nil => rfl
  | cons e es ih =>
    by_cases h : e.key = k <;> simp [mutateEntry, h, ih]

theorem findKeyIdx_lt {K V : Type} [DecidableEq K] (k : K) (es : List (SEntry K V))
    (i : Nat) (h : findKeyIdx k es = some i) : i < es.length := by
  induction es generalizing i with
  | nil => simp [findKeyIdx] at h
  | cons e es ih =>
    unfold findKeyIdx at h
    by_cases he : e.key = k
    · rw [if_pos he] at h
      simp at h
      simp [List.length_cons]
      omega
    · rw [if_neg he] at h
      rcases h2 : findKeyIdx k es with _ | j
      · rw [h2] at h
        simp at h
      · rw [h2] at h
        simp at h
        have := ih j h2
        simp [List.length_cons]
        omega

theorem sieveScan_length {K V : Type} (fuel : Nat) (es : List (SEntry K V))
    (pos : Nat) : (sieveScan fuel es pos).1.length = es.length := by
  induction fuel generalizing es pos with
  | zero => rfl
  | succ fuel ih =>
    unfold sieveScan
    rcases h : es[pos]? with _ | e
    · rfl
    · by_cases hv : e.visited
      · simp only [hv, if_true]
        rw [ih]
        exact List.length_set _ _ _
      · simp [hv]

theorem sieveScan_pos {K V : Type} (fuel : Nat) (es : List (SEntry K V))
    (pos : Nat) (h : pos < es.length) : (sieveScan fuel es pos).2 < es.length := by
  induction fuel generalizing es pos with
  | zero => exact h
  | succ fuel ih =>
    unfold sieveScan
    rcases h2 : es[pos]? with _ | e
    · exact h
    · by_cases hv : e.visited
      · simp only [hv, if_true]
        have hlen : (es.set pos { e with visited := false }).length = es.length :=
          List.length_set _ _ _
        have hmod : (pos + 1) % es.length < es.length := Nat.mod_lt _ (by omega)
        have := ih (es.set pos { e with visited := false }) ((pos + 1) % es.length)
          (by omega)
        omega
      · simp [hv, h]

theorem evict_length {K V : Type} (c : SieveCache K V) (h : 0 < c.entries.length) :
    c.evict.entries.length = c.entries.length - 1 ∧ c.evict.capacity = c.capacity := by
  unfold SieveCache.evict
  rw [if_neg (by omega)]
  have hstart : (match c.hand with
      | some p => p % c.entries.length
      | none => 0) < c.entries.length := by
    rcases c.hand with _ | p
    · exact h
    · exact Nat.mod_lt _ h
  have hslen := sieveScan_length (c.entries.length + 1) c.entries
    (match c.hand with
      | some p => p % c.entries.length
      | none => 0)
  have hspos := sieveScan_pos (c.entries.length + 1) c.entries
    (match c.hand with
      | some p => p % c.entries.length
      | none => 0) hstart
  constructor
  · show (List.eraseIdx _ _).length = c.entries.length - 1
    rw [List.length_eraseIdx_of_lt (by omega)]
    omega
  · rfl

theorem applyCOp_bounds {K V : Type} [DecidableEq K] (c : SieveCache K V)
    (op : COp K V) (hcap : 0 < c.capacity) (hlen : c.entries.length ≤ c.capacity) :
    (c.applyCOp op).entries.length ≤ c.capacity ∧ (c.applyCOp op).capacity = c.capacity := by
  cases op with
  | insert k v =>
    show ((c.insert k v).1.entries.length ≤ c.capacity ∧
      (c.insert k v).1.capacity = c.capacity)
    unfold SieveCache.insert
    by_cases hc : containsKeyL k c.entries
    · simp only [hc, if_true]
      exact ⟨by rw [length_updateEntry]; exact hlen, by trivial⟩
    · simp only [hc, if_false, Bool.false_eq_true]
      by_cases hfull : c.entries.length = c.capacity
      · simp only [hfull, if_true]
        have he := evict_length c (by omega)
        constructor
        · rw [List.length_append]
          simp only [List.length_cons, List.length_nil]
          omega
        · exact he.2
      · simp only [hfull, if_false]
        constructor
        · rw [List.length_append]
          simp only [List.length_cons, List.length_nil]
          omega
        · trivial
  | get k =>
    show ((touchEntry k c.entries).length ≤ c.capacity ∧ c.capacity = c.capacity)
    rw [length_touchEntry]
    exact ⟨hlen, rfl⟩
  | getMut k f =>
    show ((mutateEntry k f c.entries).length ≤ c.capacity ∧ c.capacity = c.capacity)
    rw [length_mutateEntry]
    exact ⟨hlen, rfl⟩
  | remove k =>
    show ((c.remove k).2.entries.length ≤ c.capacity ∧
      (c.remove k).2.capacity = c.capacity)
    unfold SieveCache.remove
    rcases hf : findKeyIdx k c.entries with _ | i
    · exact ⟨hlen, rfl⟩
    · constructor
      · show (c.entries.eraseIdx i).length ≤ c.capacity
        have := findKeyIdx_lt k c.entries i hf
        rw [List.length_eraseIdx_of_lt this]
        omega
      · rfl
  | clear =>
    exact ⟨by simp [SieveCache.applyCOp, SieveCache.clear], rfl⟩
  | retain p =>
    constructor
    · show (c.entries.filter _).length ≤ c.capacity
      have := List.length_filter_le (fun e => p e.key e.value) c.entries
      omega
    · rfl

theorem runOps_bounds {K V : Type} [DecidableEq K] (c : SieveCache K V)
    (ops : List (COp K V)) (hcap : 0 < c.capacity)
    (hlen : c.entries.length ≤ c.capacity) :
    (c.runOps ops).entries.length ≤ (c.runOps ops).capacity ∧
      (c.runOps ops).capacity = c.capacity := by
  induction ops generalizing c with
  | nil => exact ⟨hlen, rfl⟩
  | cons op ops ih =>
    have hstep := applyCOp_bounds c op hcap hlen
    have := ih (c.applyCOp op) (by omega) (by omega)
    have hgoal : c.runOps (op :: ops) = (c.applyCOp op).runOps ops := rfl
    rw [hgoal]
    omega

/-- C1: for every successfully constructed cache and every sequence of
public operations, the entry count never exceeds the capacity after any
operation returns. -/
theorem C1_capacity_invariant (K V : Type) [DecidableEq K] (cap : Nat)
    (c0 : SieveCache K V) (h : SieveCache.new K V cap = some c0)
    (ops : List (COp K V)) :
    (c0.runOps ops).len ≤ (c0.runOps ops).capacity := by
  unfold SieveCache.new at h
  by_cases hz : cap = 0
  · rw [if_pos hz] at h
    exact absurd h (by simp)
  · rw [if_neg hz] at h
    have hc0 : c0 = ⟨[], none, cap⟩ := by
      injection h with h2
      exact h2.symm
    subst hc0
    exact (runOps_bounds _ ops (Nat.pos_of_ne_zero hz) (by simp)).1

theorem C1_witness :
    SieveCache.new Nat Nat 2 = some ⟨[], none, 2⟩ ∧
      ((⟨[], none, 2⟩ : SieveCache Nat Nat).runOps
        [.insert 1 10, .insert 2 20, .insert 1 11, .insert 3 30]).len
        ≤ ((⟨[], none, 2⟩ : SieveCache Nat Nat).runOps
            [.insert 1 10, .insert 2 20, .insert 1 11, .insert 3 30]).capacity :=
  ⟨by decide, C1_capacity_invariant Nat Nat 2 ⟨[], none, 2⟩ (by decide)
    [.insert 1 10, .insert 2 20, .insert 1 11, .insert 3 30]⟩

theorem lookupL_updateEntry {K V : Type} [DecidableEq K] (k : K) (v : V)
    (es : List (SEntry K V)) (h : containsKeyL k es = true) :
    lookupL k (updateEntry k v es) = some v := by
  induction es with
  | nil => simp [containsKeyL] at h
  | cons e es ih =>
    by_cases he : e.key = k
    · unfold updateEntry
      rw [if_pos he]
      unfold lookupL
      rw [if_pos he]
    · unfold updateEntry
      rw [if_neg he]
      unfold lookupL
      rw [if_neg he]
      apply ih
      unfold containsKeyL at h
      simpa [he] using h

theorem visitedL_updateEntry {K V : Type} [DecidableEq K] (k : K) (v : V)
    (es : List (SEntry K V)) (h : containsKeyL k es = true) :
    visitedL k (updateEntry k v es) = some true := by
  induction es with
  | nil => simp [containsKeyL] at h
  | cons e es ih =>
    by_cases he : e.key = k
    · unfold updateEntry
      rw [if_pos he]
      unfold visitedL
      rw [if_pos he]
    · unfold updateEntry
      rw [if_neg he]
      unfold visitedL
      rw [if_neg he]
      apply ih
      unfold containsKeyL at h
      simpa [he] using h

/-- The concrete update-is-use scenario of `TestVisitedFlagUpdate`: capacity
2, insert keys 1 and 2, re-insert key 1 (with a new value), insert key 3. -/
def c6state : SieveCache Nat Nat :=
  (((((SieveCache.mk [] none 2).insert 1 10).1.insert 2 20).1.insert 1 11).1.insert
    3 30).1

/-- C6: inserting an already-present key replaces its value in place, sets
its visited bit, creates no new entry, and returns `false`; and in the
capacity-2 scenario (insert 1, insert 2, re-insert 1, insert 3) key 1
survives the eviction with its updated value while the cache holds 2
entries. -/
theorem C6_update_is_use :
    (∀ (K V : Type) [DecidableEq K] (c : SieveCache K V) (k : K) (v : V),
        containsKeyL k c.entries = true →
        (c.insert k v).2 = false ∧
        (c.insert k v).1.entries.length = c.entries.length ∧
        lookupL k (c.insert k v).1.entries = some v ∧
        visitedL k (c.insert k v).1.entries = some true) ∧
    (lookupL 1 c6state.entries = some 11 ∧ c6state.containsKey 3 = true ∧
      c6state.entries.length = 2) := by
  constructor
  · intro K V instK c k v hc
    unfold SieveCache.insert
    rw [if_pos hc]
    exact ⟨rfl, length_updateEntry k v c.entries,
      lookupL_updateEntry k v c.entries hc, visitedL_updateEntry k v c.entries hc⟩
  · exact ⟨by decide, by decide, by decide⟩

theorem C6_witness :
    containsKeyL 1 c6state.entries = true ∧ (c6state.insert 1 99).2 = false :=
  ⟨by decide, (C6_update_is_use.1 Nat Nat c6state 1 99 (by decide)).1⟩

theorem roundQ_mono {q r : ℚ} (h : q ≤ r) : roundQ q ≤ roundQ r :=
  Int.floor_le_floor (by linarith)

theorem roundQ_intCast (n : ℤ) : roundQ (n : ℚ) = n := by
  unfold roundQ
  rw [add_comm, Int.floor_add_int]
  norm_num

theorem roundQ_natCast_cap (n : Nat) : roundQ ((n : ℚ)) = (n : ℤ) := by
  have h : ((n : ℤ) : ℚ) = (n : ℚ) := by push_cast; ring
  rw [← h, roundQ_intCast]

/-- C7 amended: under the documented preconditions and a positive capacity,
`recommendedCapacity` lies between the rounded lower bound
`round(capacity * minFactor)` and the rounded upper bound
`round(capacity * maxFactor)`, and an empty cache gets its capacity back
unchanged.  (The claim's real-valued bounds fail by rounding, see the
counterexample.) -/
theorem C7_recommended_capacity_bounds {K V : Type} (c : SieveCache K V)
    (minF maxF lowT highT : ℚ) (hcap : 0 < c.capacity)
    (h1 : 0 < minF) (h2 : minF ≤ 1) (h3 : 1 ≤ maxF)
    (h4 : 0 < lowT) (h5 : lowT < highT) (h6 : highT < 1) :
    roundQ ((c.capacity : ℚ) * minF) ≤ c.recommendedCapacity minF maxF lowT highT ∧
    c.recommendedCapacity minF maxF lowT highT ≤ roundQ ((c.capacity : ℚ) * maxF) ∧
    (c.entries.length = 0 →
      c.recommendedCapacity minF maxF lowT highT = (c.capacity : ℤ)) := by
  have hP : 0 < minF ∧ minF ≤ 1 ∧ 1 ≤ maxF ∧ 0 < lowT ∧ lowT < highT ∧ highT < 1 :=
    ⟨h1, h2, h3, h4, h5, h6⟩
  have hcapQ : (0 : ℚ) ≤ (c.capacity : ℚ) := by positivity
  have hlow_round : roundQ ((c.capacity : ℚ) * minF) ≤ (c.capacity : ℤ) := by
    have hle : (c.capacity : ℚ) * minF ≤ (c.capacity : ℚ) := by nlinarith
    have := roundQ_mono hle
    rwa [roundQ_natCast_cap] at this
  have hhigh_round : (c.capacity : ℤ) ≤ roundQ ((c.capacity : ℚ) * maxF) := by
    have hle : (c.capacity : ℚ) ≤ (c.capacity : ℚ) * maxF := by nlinarith
    have := roundQ_mono hle
    rwa [roundQ_natCast_cap] at this
  have hmid : ∀ s : ℚ, minF ≤ s → s ≤ maxF →
      roundQ ((c.capacity : ℚ) * minF) ≤ roundQ ((c.capacity : ℚ) * s) ∧
      roundQ ((c.capacity : ℚ) * s) ≤ roundQ ((c.capacity : ℚ) * maxF) := by
    intro s hs1 hs2
    exact ⟨roundQ_mono (by nlinarith), roundQ_mono (by nlinarith)⟩
  simp only [SieveCache.recommendedCapacity]
  rw [if_neg (not_not_intro hP)]
  by_cases hempty : c.entries.length = 0
  · rw [if_pos hempty]
    exact ⟨hlow_round, hhigh_round, fun _ => rfl⟩
  · rw [if_neg hempty]
    by_cases hlow : (c.visitedCount : ℚ) / (c.capacity : ℚ) ≤ lowT
    · rw [if_pos hlow]
      have hs1 : minF ≤ clampQ ((c.visitedCount : ℚ) / (c.capacity : ℚ) / lowT) minF 1 :=
        le_max_left _ _
      have hs2 : clampQ ((c.visitedCount : ℚ) / (c.capacity : ℚ) / lowT) minF 1 ≤ maxF :=
        max_le (le_trans h2 h3) (le_trans (min_le_right _ _) h3)
      have := hmid _ hs1 hs2
      exact ⟨this.1, this.2, fun he => absurd he hempty⟩
    · rw [if_neg hlow]
      by_cases hhigh : highT ≤ (c.visitedCount : ℚ) / (c.capacity : ℚ)
      · rw [if_pos hhigh]
        have hs1 : minF ≤ clampQ ((c.visitedCount : ℚ) / (c.capacity : ℚ) / highT) 1 maxF :=
          le_trans h2 (le_max_left _ _)
        have hs2 : clampQ ((c.visitedCount : ℚ) / (c.capacity : ℚ) / highT) 1 maxF ≤ maxF :=
          max_le h3 (min_le_right _ _)
        have := hmid _ hs1 hs2
        exact ⟨this.1, this.2, fun he => absurd he hempty⟩
      · rw [if_neg hhigh]
        exact ⟨hlow_round, hhigh_round, fun he => absurd he hempty⟩

/-- A one-entry cache of capacity 1 with nothing visited: utilization 0. -/
def c7state : SieveCache Nat Nat := ⟨[⟨0, 0, false⟩], none, 1⟩

/-- C7 counterexample: with capacity 1, one unvisited entry, and the
precondition-satisfying parameters minFactor 2/5, maxFactor 2,
lowThreshold 1/4, highThreshold 3/4, the spec's formula rounds
`capacity * clamp(0, 2/5, 1) = 2/5` down to 0, which is strictly below the
claimed lower bound `capacity * minFactor = 2/5`. -/
theorem C7_counterexample :
    0 < c7state.capacity ∧
    (0 < (2/5 : ℚ) ∧ (2/5 : ℚ) ≤ 1 ∧ 1 ≤ (2 : ℚ) ∧ 0 < (1/4 : ℚ) ∧
      (1/4 : ℚ) < 3/4 ∧ (3/4 : ℚ) < 1) ∧
    c7state.recommendedCapacity (2/5) 2 (1/4) (3/4) = 0 ∧
    ((c7state.recommendedCapacity (2/5) 2 (1/4) (3/4) : ℤ) : ℚ)
      < (c7state.capacity : ℚ) * (2/5) := by
  have hrc : c7state.recommendedCapacity (2/5) 2 (1/4) (3/4) = 0 := by
    simp only [SieveCache.recommendedCapacity, SieveCache.visitedCount, c7state]
    norm_num [clampQ, roundQ]
  refine ⟨by norm_num [c7state], by norm_num, hrc, ?_⟩
  rw [hrc]
  show ((0 : ℤ) : ℚ) < (c7state.capacity : ℚ) * (2/5)
  norm_num [c7state]

/-- A one-entry cache of capacity 2 whose entry is visited. -/
def c7w : SieveCache Nat Nat := ⟨[⟨0, 0, true⟩], none, 2⟩

theorem C7_witness :
    0 < c7w.capacity ∧
      roundQ ((c7w.capacity : ℚ) * (1/2)) ≤ c7w.recommendedCapacity (1/2) 2 (1/4) (3/4) :=
  ⟨by norm_num [c7w],
   (C7_recommended_capacity_bounds c7w (1/2) 2 (1/4) (3/4) (by norm_num [c7w])
      (by norm_num) (by norm_num) (by norm_num) (by norm_num) (by norm_num)
      (by norm_num)).1⟩
